import Mathlib

/-!
Verification of the TeXPen resumable chunked download subsystem.

The definitions below are a shallow embedding of the downloader core:

* `src/services/downloader/v2/ChunkStore.ts` — `ChunkStore.appendChunk`,
  `ChunkStore.clear`, `ChunkStore.getStream`, and the `DownloadScheduler`
  (`download`, `waitForJob`, `processQueue`).
* `src/services/downloader/v2/DownloadJob.ts` — `DownloadJob._execute`
  (resumption, response classification, the buffered flush loop, and the
  quota fallback inside `flush`).
* `src/services/downloader/DownloadManager.ts` — `finalizeCache` and
  `checkCacheIntegrity`.

All state is modelled per URL: the scheduler serializes jobs per URL and
every ChunkStore / ContentCache operation used by the claims is keyed by
the URL, so a state for a single fixed URL is a faithful restriction.
Byte buffers (`Blob` / `Uint8Array`) are modelled as `List Nat`; wall-clock
fields (`lastModified`, `progress.speed`) are not modelled since no claim
mentions them.
-/

/-- Bytes of a buffer (`Blob` / `Uint8Array` contents). -/
abbrev Bytes := List Nat

/-- Chunk table rows for one URL: IndexedDB object store `chunks` keyed by
`[url, index]`, restricted to the fixed URL, so keyed by the index alone. -/
abbrev ChunkTable := List (Nat × Bytes)

/-- Metadata record of the `metadata` object store (`ChunkStore.ts`, the
`DownloadDB` schema): `totalBytes`, `downloadedBytes`, `chunkCount`, `etag`.
The `url` key is fixed, `lastModified` is wall clock and not modelled. -/
structure ChunkMeta where
  totalBytes : Nat
  downloadedBytes : Nat
  chunkCount : Nat
  etag : Option String
deriving Repr, DecidableEq

/-- Persistent ChunkStore state for the fixed URL: the optional metadata
record plus the chunk rows. -/
structure StoreState where
  meta : Option ChunkMeta
  chunks : ChunkTable
deriving Repr, DecidableEq

/-- Store with no record for the URL. -/
def emptyStore : StoreState := { meta := none, chunks := [] }

/-- Read the chunk row with key `i` (IndexedDB `db.get('chunks', [url, i])`).
Newest row for a key shadows older ones, see `putChunk`. -/
def lookupChunk (t : ChunkTable) (i : Nat) : Option Bytes :=
  match t with
  | [] => none
  | (j, b) :: rest => if j = i then some b else lookupChunk rest i

/-- Write the chunk row with key `i` (IndexedDB `chunkStore.put(chunk, [url, i])`).
An IndexedDB put replaces the record at the key; prepending the new row models
that, because `lookupChunk` returns the newest row for a key. -/
def putChunk (t : ChunkTable) (i : Nat) (b : Bytes) : ChunkTable :=
  (i, b) :: t

/-- Embedding of `ChunkStore.appendChunk` (ChunkStore.ts lines 45-105): one
committed transaction that writes the chunk row and updates the metadata.
Mirrors the source exactly: the metadata record is created with
`downloadedBytes = 0, chunkCount = 0` when absent; then
`chunkCount = max chunkCount (index+1)`; then `downloadedBytes` is REWRITTEN
to `chunk.size` when `index === 0` and incremented otherwise; finally
`totalBytes` is set to the supplied value unconditionally. -/
def appendChunk (s : StoreState) (chunk : Bytes) (index : Nat) (totalBytes : Nat)
    (etag : Option String) : StoreState :=
  let chunks := putChunk s.chunks index chunk
  let m0 : ChunkMeta :=
    match s.meta with
    | none => { totalBytes := totalBytes, downloadedBytes := 0, chunkCount := 0, etag := etag }
    | some m => m
  let m1 : ChunkMeta := { m0 with chunkCount := max m0.chunkCount (index + 1) }
  let m2 : ChunkMeta :=
    if index = 0 then { m1 with downloadedBytes := chunk.length }
    else { m1 with downloadedBytes := m1.downloadedBytes + chunk.length }
  let m3 : ChunkMeta := { m2 with totalBytes := totalBytes }
  { meta := some m3, chunks := chunks }

/-- Embedding of `ChunkStore.clear` (ChunkStore.ts lines 112-130): deletes
every chunk row for the URL (cursor over the key range `[url,0]..[url,∞]`)
and the metadata record. Idempotent. -/
def clearStore (s : StoreState) : StoreState :=
  let _ := s
  { meta := none, chunks := [] }

/-- Embedding of `ChunkStore.getStream` (ChunkStore.ts lines 136-165) as the
list of chunk payloads the stream emits. Each pull reads the row at the next
index; `controller.close()` fires once `index >= expectedChunks`, and a missing
row errors the stream with the offending index (`Missing chunk i`). The value
`Except.ok L` is the fully drained stream; `Except.error i` is the stream
erroring at the first missing index `i`. -/
def getStreamChunks (s : StoreState) : Nat → Except Nat (List Bytes)
  | 0 => Except.ok []
  | n + 1 =>
    match getStreamChunks s n, lookupChunk s.chunks n with
    | Except.error i, _ => Except.error i
    | Except.ok _, none => Except.error n
    | Except.ok acc, some b => Except.ok (acc ++ [b])

/-- Embedding of `DownloadManager.finalizeCache` (DownloadManager.ts lines
218-254). With a memory blob (quota-fallback completion) the blob is cached
directly; otherwise the metadata is read (`Metadata missing` when absent), the
integrity check `downloadedBytes !== totalBytes` is enforced, and the store
stream over `chunkCount` chunks is drained into the Cache API entry (a missing
chunk errors the stream, hence the `cache.put`, before the store is cleared).
Both success paths end with `store.clear(url)`. Returns the cached bytes and
the store state left behind. -/
def finalizeCache (s : StoreState) (memoryBlob : Option Bytes) :
    Except String (Bytes × StoreState) :=
  match memoryBlob with
  | some b => Except.ok (b, clearStore s)
  | none =>
    match s.meta with
    | none => Except.error "Download failed: Metadata missing"
    | some m =>
      if m.downloadedBytes ≠ m.totalBytes then
        Except.error "Integrity check failed"
      else
        match getStreamChunks s m.chunkCount with
        | Except.error i => Except.error ("Missing chunk " ++ toString i)
        | Except.ok chunks => Except.ok (chunks.flatten, clearStore s)

/-- ContentCache entry as `checkCacheIntegrity` observes it: the stored
`Content-Length` header (absent when the response carried none) and the body. -/
structure CachedEntry where
  contentLength : Option Nat
  body : Bytes
deriving Repr, DecidableEq

/-- Result of `DownloadManager.checkCacheIntegrity`: `ok` for `{ok:true}`,
`missing` for `{ok:false, missing:true}`, `sizeMismatch` for the
`Size mismatch` reason. -/
inductive IntegrityResult where
  | ok
  | missing
  | sizeMismatch (expected got : Nat)
deriving Repr, DecidableEq

/-- Embedding of `DownloadManager.checkCacheIntegrity` (DownloadManager.ts
lines 256-276): a missing cache entry reports `missing`; when the entry has a
`Content-Length` header the stored blob size is compared against it; when the
header is absent the size comparison is skipped and the result is `ok`. -/
def checkCacheIntegrity (entry : Option CachedEntry) : IntegrityResult :=
  match entry with
  | none => IntegrityResult.missing
  | some e =>
    match e.contentLength with
    | some n =>
      if e.body.length ≠ n then IntegrityResult.sizeMismatch n e.body.length
      else IntegrityResult.ok
    | none => IntegrityResult.ok

/-- Resumption check of `DownloadJob._execute` (DownloadJob.ts lines 83-96):
read the metadata; when present with `downloadedBytes > 0` adopt
`startByte = downloadedBytes` and `chunkIndex = chunkCount`; when present with
zero bytes clear the stale record and start from zero. Returns the store after
the optional clear together with `(startByte, chunkIndex)`. -/
def resume (s : StoreState) : StoreState × Nat × Nat :=
  match s.meta with
  | some m =>
    if 0 < m.downloadedBytes then (s, m.downloadedBytes, m.chunkCount)
    else (clearStore s, 0, 0)
  | none => (s, 0, 0)

/-- Streaming consumption loop of `DownloadJob._execute` (DownloadJob.ts
lines 225-250), with `appendChunk` always committing (no quota failure):
each read value is pushed onto `pendingChunks`; once the pending byte count
reaches `buf` (the 5 MiB `bufferSize`) the pending chunks are flushed as one
blob via `appendChunk(url, blob, chunkIndex++, total, etag)` with the response
etag fixed to `none`. Returns the store, the next chunk index, and the pending
chunks left unflushed when the read list ends (dropped on abort, flushed by
`finalFlush` on `done`). -/
def runReads (buf : Nat) (total : Nat) :
    StoreState → Nat → List Bytes → List Bytes → StoreState × Nat × List Bytes
  | s, ci, pend, [] => (s, ci, pend)
  | s, ci, pend, v :: vs =>
    let p := pend ++ [v]
    if buf ≤ p.flatten.length then
      runReads buf total (appendChunk s p.flatten ci total none) (ci + 1) [] vs
    else
      runReads buf total s ci p vs

/-- Final flush at end-of-stream (DownloadJob.ts lines 227-229 with the guard
of line 173): `flush` returns without touching the store when `pendingChunks`
is empty, otherwise the pending chunks are committed as one final blob. -/
def finalFlush (s : StoreState) (ci : Nat) (total : Nat) (pend : List Bytes) : StoreState :=
  match pend with
  | [] => s
  | _ => appendChunk s pend.flatten ci total none

/-- One HTTP response as `DownloadJob._execute` observes it: the status, the
parsed `Content-Length` header, the `N` of a parsed `Content-Range: */N`
header (`none` when the header is absent or does not match the regex), the
entity tag, and the body reads delivered by `response.body.getReader()`. -/
structure HttpResponse where
  status : Nat
  contentLength : Option Nat
  contentRangeTotal : Option Nat
  etag : Option String
  body : List Bytes
deriving Repr, DecidableEq

/-- ETag drift test of DownloadJob.ts line 140: `meta && meta.etag && etag &&
meta.etag !== etag`, evaluated on the metadata snapshot read before any clear. -/
def etagMismatch (metaSnap : Option ChunkMeta) (respEtag : Option String) : Bool :=
  match metaSnap, respEtag with
  | some m, some e =>
    match m.etag with
    | some me => me != e
    | none => false
  | _, _ => false

/-- Embedding of `DownloadJob._execute` (DownloadJob.ts lines 82-251) run
against an explicit list of responses: the head response answers the current
fetch, and the one-shot restart (`return this._execute()` on line 128 after a
416) consumes the next response. Mirrors the source path by path:
resumption; the `!response.ok` branch with its 416 / `Content-Range: */N`
handling (`startByte >= serverSize` means already complete, otherwise clear
and re-execute); `totalSize = Content-Length + startByte` computed BEFORE the
200-reset; the ETag-mismatch throw; the `200 OK` with `startByte > 0` reset
(clear store, `startByte = 0`, `chunkIndex = 0`, keep consuming the same
response); the buffered consumption loop and final flush. Each body is
consumed to its end (interruption patterns are covered by `runSession`). -/
def execLoop (buf : Nat) : StoreState → List HttpResponse → Except String StoreState
  | _, [] => Except.error "no response"
  | s0, resp :: rest =>
    let r := resume s0
    let s := r.1
    let startByte := r.2.1
    let ci := r.2.2
    let metaSnap := s0.meta
    if resp.status < 200 ∨ 300 ≤ resp.status then
      if resp.status = 416 then
        match resp.contentRangeTotal with
        | some n =>
          if n ≤ startByte then Except.ok s
          else execLoop buf (clearStore s) rest
        | none => execLoop buf (clearStore s) rest
      else Except.error ("Fetch failed: " ++ toString resp.status)
    else
      let totalSize :=
        match resp.contentLength with
        | some n => n + startByte
        | none =>
          match metaSnap with
          | some m => m.totalBytes
          | none => 0
      if etagMismatch metaSnap resp.etag then
        Except.error "ETag mismatch, restart required"
      else
        let sci := if 0 < startByte ∧ resp.status = 200 then (clearStore s, 0) else (s, ci)
        let out := runReads buf totalSize sci.1 sci.2 [] resp.body
        Except.ok (finalFlush out.1 out.2.1 totalSize out.2.2)

/-- Quota-fallback logic of the `flush` closure (DownloadJob.ts lines
172-220) for a single flush of `blob` at `chunkIndex`. `quotaFails` injects
the `QuotaExceededError` from `appendChunk`; `handler` is the configured
quota handler outcome (`none` when no handler is installed). On failure with
a consenting handler the job streams the persisted chunks back with
`getStream(url, chunkIndex)` — where the source variable `chunkIndex` was
already post-incremented by `chunkIndex++` in the failing `appendChunk` call,
so the bound is the failed index plus one — pushes them into memory, clears
the store, and appends the failed blob to memory switching to memory mode.
A recovery error rethrows the quota error; a refusing or absent handler
rethrows it as well. Returns the store, the memory chunks, and the
memory-mode flag. -/
def flushWithQuota (s : StoreState) (blob : Bytes) (chunkIndex : Nat) (total : Nat)
    (etag : Option String) (quotaFails : Bool) (handler : Option Bool) :
    Except String (StoreState × List Bytes × Bool) :=
  if quotaFails = false then
    Except.ok (appendChunk s blob chunkIndex total etag, [], false)
  else
    match handler with
    | some true =>
      match getStreamChunks s (chunkIndex + 1) with
      | Except.error _ => Except.error "QuotaExceededError"
      | Except.ok recovered => Except.ok (clearStore s, recovered ++ [blob], true)
    | some false => Except.error "QuotaExceededError"
    | none => Except.error "QuotaExceededError"

/-- Split the remainder of a body into read values: `takeReads rem cuts`
delivers a value of `cuts[i]` bytes at step `i` (truncated once the remainder
runs out). Every way a server can chunk a byte sequence, including empty
reads, arises from some cut list. -/
def takeReads : Bytes → List Nat → List Bytes
  | _, [] => []
  | rem, c :: cs => rem.take c :: takeReads (rem.drop c) cs

/-- Bytes of the remainder not covered by `takeReads rem cuts`. -/
def dropReads : Bytes → List Nat → Bytes
  | rem, [] => rem
  | rem, c :: cs => dropReads (rem.drop c) cs

/-- One invocation of `DownloadJob._execute` in a run against a
Range-honoring server: `cuts` chooses how the server chunks the response body
and, for an interrupted session, how many bytes the job consumes before the
abort; `completes` tells whether the session runs to end-of-stream (an
aborted session drops its pending buffer, DownloadJob.ts lines 64-67 and
225-230). -/
structure Session where
  cuts : List Nat
  completes : Bool
deriving Repr, DecidableEq

/-- Embedding of one `DownloadJob._execute` invocation (DownloadJob.ts lines
82-251) specialised to a Range-honoring server for body `B` with a stable
validator (etag `none`): after resumption, a request with
`Range: bytes=startByte-` where `startByte ≥ B.length` is answered `416` with
`Content-Range: */B.length`, which the job treats as already complete
(lines 110-121); otherwise the server answers `206` (or `200` when
`startByte = 0`) with `Content-Length = B.length - startByte` and body
`B.drop startByte`, so `totalSize = Content-Length + startByte` (line 136) and
the 200-reset and ETag branches are never taken. The body is consumed through
the buffered flush loop; a completing session flushes the pending tail, an
aborted one drops it. -/
def runSession (B : Bytes) (buf : Nat) (s0 : StoreState) (sess : Session) : StoreState :=
  let r := resume s0
  let s := r.1
  let startByte := r.2.1
  let ci := r.2.2
  if 0 < startByte ∧ B.length ≤ startByte then
    s
  else
    let totalSize := (B.length - startByte) + startByte
    let rem := B.drop startByte
    let reads :=
      if sess.completes then takeReads rem (sess.cuts ++ [rem.length])
      else takeReads rem sess.cuts
    let out := runReads buf totalSize s ci [] reads
    if sess.completes then finalFlush out.1 out.2.1 totalSize out.2.2 else out.1

/-- A full interruption/resume pattern: the sessions of one job lifecycle run
in order against the same server body `B` (a paused job restarted by the
scheduler re-enters `_execute`, DownloadJob.ts lines 48-55). -/
def runSessions (B : Bytes) (buf : Nat) : StoreState → List Session → StoreState
  | s, [] => s
  | s, sess :: rest => runSessions B buf (runSession B buf s sess) rest

/-- Concurrency bound of the scheduler: `private readonly MAX_CONCURRENT = 3`
(ChunkStore.ts line 274 of the `DownloadScheduler`). -/
def MAX_CONCURRENT : Nat := 3

/-- Scheduler state (`DownloadScheduler`, ChunkStore.ts lines 267-364):
`jobs` is the key set of the per-URL job map, `queue` the FIFO admission
queue, `activeCount` the counter incremented in `processQueue` and
decremented in the completion/error callbacks of `waitForJob`, and `running`
the URLs of jobs on which `start()` has been called and which have not yet
completed or failed. -/
structure SchedState where
  jobs : List String
  queue : List String
  activeCount : Nat
  running : List String
deriving Repr, DecidableEq

/-- Scheduler state at construction. -/
def emptySched : SchedState := { jobs := [], queue := [], activeCount := 0, running := [] }

/-- Loop of `DownloadScheduler.processQueue` (ChunkStore.ts lines 346-357):
while `activeCount < MAX_CONCURRENT` and the queue is nonempty, shift a job,
increment `activeCount`, start the job, and recurse. Returns the final
`(activeCount, running, queue)`. -/
def drainQueue (maxC : Nat) : Nat → List String → List String → Nat × List String × List String
  | active, running, [] => (active, running, [])
  | active, running, j :: q =>
    if maxC ≤ active then (active, running, j :: q)
    else drainQueue maxC (active + 1) (j :: running) q

/-- `DownloadScheduler.processQueue` as a state transformer. -/
def processQueue (maxC : Nat) (s : SchedState) : SchedState :=
  let out := drainQueue maxC s.activeCount s.running s.queue
  { s with activeCount := out.1, running := out.2.1, queue := out.2.2 }

/-- `DownloadScheduler.download` (ChunkStore.ts lines 293-311): a URL with a
tracked job deduplicates (the caller merely attaches to the existing job, no
scheduling change); otherwise a new job is registered in the map, pushed onto
the queue, and `processQueue` runs. -/
def reqDownload (maxC : Nat) (s : SchedState) (url : String) : SchedState :=
  if url ∈ s.jobs then s
  else processQueue maxC { s with jobs := url :: s.jobs, queue := s.queue ++ [url] }

/-- Completion or failure of a running job: both the resolution and the
rejection callback installed by `waitForJob` (ChunkStore.ts lines 324-342)
delete the job from the map, decrement `activeCount` exactly once, and run
`processQueue`. The event only fires for a job that was started. -/
def jobDone (maxC : Nat) (s : SchedState) (url : String) : SchedState :=
  if url ∈ s.running then
    processQueue maxC
      { jobs := s.jobs.erase url
        queue := s.queue
        activeCount := s.activeCount - 1
        running := s.running.erase url }
  else s

/-- Scheduler states reachable from construction by any interleaving of
download requests and job completions/failures. -/
inductive SchedReachable (maxC : Nat) : SchedState → Prop
  | init : SchedReachable maxC emptySched
  | req (url : String) (s : SchedState) :
      SchedReachable maxC s → SchedReachable maxC (reqDownload maxC s url)
  | done (url : String) (s : SchedState) :
      SchedReachable maxC s → SchedReachable maxC (jobDone maxC s url)

/-- Callback slots of a `DownloadJob` (DownloadJob.ts lines 19-21 and 38-46).
Callbacks are modelled by the identity of the `waitForJob` caller whose
promise they settle: slot `some k` settles subscriber `k`. -/
structure JobCBs where
  onProgress : Option Nat
  onComplete : Option Nat
  onError : Option Nat
deriving Repr, DecidableEq

/-- `DownloadJob.setCallbacks` as invoked by `DownloadScheduler.waitForJob`
(ChunkStore.ts lines 313-344): ALL THREE slots — progress, completion and
error — are overwritten with the new subscriber. -/
def setCallbacks (cbs : JobCBs) (k : Nat) : JobCBs :=
  let _ := cbs
  { onProgress := some k, onComplete := some k, onError := some k }

/-- Subscribers attaching to the same tracked job in order: each deduplicated
`download` call runs `waitForJob`, which calls `setCallbacks` on the shared
job instance. -/
def attachAll (cbs : JobCBs) : List Nat → JobCBs
  | [] => cbs
  | k :: ks => attachAll (setCallbacks cbs k) ks

/-- Subscribers settled when the job completes: `start()` invokes the current
`onCompleteCallback` once (DownloadJob.ts lines 56-63). -/
def settleComplete (cbs : JobCBs) : List Nat :=
  match cbs.onComplete with
  | some k => [k]
  | none => []

/-- Subscribers settled when the job fails: `start()` invokes the current
`onErrorCallback` once (DownloadJob.ts lines 64-73). -/
def settleError (cbs : JobCBs) : List Nat :=
  match cbs.onError with
  | some k => [k]
  | none => []

/-- The chunk table holds exactly the rows of the list `L`: row `i` is
`L.get? i` (present for `i < L.length`, absent beyond). -/
def StoreDescr (L : List Bytes) (t : ChunkTable) : Prop :=
  ∀ i, lookupChunk t i = L.get? i

/-- Store invariant of a download of body `B` from a Range-honoring server,
holding between sessions: either no record exists, or the metadata carries
the body length as `totalBytes`, `downloadedBytes ≤ B.length`, and the chunk
rows are exactly chunks `0..chunkCount-1` whose concatenation is the first
`downloadedBytes` bytes of `B` (spec invariants I1, I2, I4, I5). -/
def StoreInv (B : Bytes) (s : StoreState) : Prop :=
  match s.meta with
  | none => s.chunks = []
  | some m =>
    m.totalBytes = B.length ∧ m.downloadedBytes ≤ B.length ∧
    ∃ L : List Bytes, L.length = m.chunkCount ∧ StoreDescr L s.chunks ∧
      L.flatten = B.take m.downloadedBytes

/-- Invariant inside the consumption loop of one session: the store is fresh
(nothing flushed yet, next flush lands at index 0) or the metadata records
exactly `off` bytes across `ci` sequential chunks, with the next flush landing
at index `ci`. -/
def RunInv (B : Bytes) (s : StoreState) (ci off : Nat) : Prop :=
  (s.meta = none ∧ s.chunks = [] ∧ ci = 0 ∧ off = 0) ∨
  (∃ m L, s.meta = some m ∧ m.totalBytes = B.length ∧ m.downloadedBytes = off ∧
    off ≤ B.length ∧ m.chunkCount = ci ∧ L.length = ci ∧ StoreDescr L s.chunks ∧
    L.flatten = B.take off)

/-- Scheduler invariant: `activeCount` counts exactly the running jobs and
never exceeds the concurrency bound. -/
def SchedInv (maxC : Nat) (s : SchedState) : Prop :=
  s.running.length = s.activeCount ∧ s.activeCount ≤ maxC

/-- Seed store of the quota-fallback scenario (spec seed test 6): chunk 0 of
3 bytes committed with `totalBytes = 6`. -/
def c2Store : StoreState := appendChunk emptyStore [1, 2, 3] 0 6 none

/-- Store resuming from 5 of 10 bytes: one committed chunk `[0,1,2,3,4]`
(spec seed test 5 observes this via `downloaded_bytes = 5`). -/
def c3Store : StoreState :=
  { meta := some { totalBytes := 10, downloadedBytes := 5, chunkCount := 1, etag := none }
    chunks := [(0, [0, 1, 2, 3, 4])] }

/-- Response of a server that ignores the `Range: bytes=5-` header: `200 OK`
with `Content-Length: 10` and the full 10-byte body. -/
def c3Resp : HttpResponse :=
  { status := 200, contentLength := some 10, contentRangeTotal := none, etag := none
    body := [[0, 1, 2, 3, 4, 5, 6, 7, 8, 9]] }

/-- Store the job leaves behind in the ignored-Range scenario: the full body
as chunk 0, but `totalBytes` inflated to 15 = Content-Length 10 + the stale
`startByte` 5. -/
def c3After : StoreState :=
  { meta := some { totalBytes := 15, downloadedBytes := 10, chunkCount := 1, etag := none }
    chunks := [(0, [0, 1, 2, 3, 4, 5, 6, 7, 8, 9])] }

/-- Store claiming 100 downloaded bytes (spec seed test 4). -/
def c4Store : StoreState :=
  { meta := some { totalBytes := 100, downloadedBytes := 100, chunkCount := 1, etag := none }
    chunks := [(0, List.replicate 100 7)] }

/-- Response `416 Range Not Satisfiable` carrying `Content-Range: */50`. -/
def c4Resp416 : HttpResponse :=
  { status := 416, contentLength := none, contentRangeTotal := some 50, etag := none
    body := [] }

/-- Fresh `200 OK` response with a 13-byte body, available as the second
fetch of the scenario. -/
def c4RespFresh : HttpResponse :=
  { status := 200, contentLength := some 13, contentRangeTotal := none, etag := none
    body := [List.replicate 13 9] }

/-!
Theorems. Each claim of the specification is settled below; helper lemmas
precede the claim theorems that use them.
-/

/-- C10: when the cached entry for a URL carries no `Content-Length` header,
`checkCacheIntegrity` returns ok for every stored body — the size check runs
only when the header is present. -/
theorem integrity_ok_without_contentLength (body : Bytes) :
    checkCacheIntegrity (some { contentLength := none, body := body }) = IntegrityResult.ok :=
  rfl

/-- C5 counterexample: after committing chunk 0 of 3 bytes with
`totalBytes = 10`, a second committed append at index 0 of 4 bytes supplying
`totalBytes = 0` leaves `downloadedBytes = 4` (rewritten, not `3 + 4`) and
`totalBytes = 0` (overwritten by the supplied zero, not the latest non-zero
value 10), refuting the claimed update rule at this input. -/
theorem appendChunk_claim_counterexample :
    (appendChunk (appendChunk emptyStore [1, 2, 3] 0 10 none) [4, 5, 6, 7] 0 0 none).meta =
      some { totalBytes := 0, downloadedBytes := 4, chunkCount := 1, etag := none } ∧
    (appendChunk (appendChunk emptyStore [1, 2, 3] 0 10 none) [4, 5, 6, 7] 0 0 none).meta ≠
      some { totalBytes := 10, downloadedBytes := 3 + 4, chunkCount := 1, etag := none } := by
  decide

/-- C5 amended: every committed `append_chunk(url, chunk, index, total, etag)`
updates the metadata record by `chunk_count := max(chunk_count, index + 1)`;
`downloaded_bytes := size(chunk)` when `index = 0` and
`downloaded_bytes + size(chunk)` (absent record read as 0) when `index > 0`;
`total_bytes := the supplied value unconditionally (zero included)`; and the
validator is kept from the existing record, or taken from the supplied value
when the record is created. -/
theorem appendChunk_meta_update (s : StoreState) (chunk : Bytes) (index total : Nat)
    (etag : Option String) :
    (appendChunk s chunk index total etag).meta =
      some { totalBytes := total
             downloadedBytes :=
               if index = 0 then chunk.length
               else (match s.meta with | some m => m.downloadedBytes | none => 0) + chunk.length
             chunkCount := max (match s.meta with | some m => m.chunkCount | none => 0) (index + 1)
             etag := match s.meta with | some m => m.etag | none => etag } := by
  cases h : s.meta
  · simp [appendChunk, h]
  · simp [appendChunk, h]
    split <;> exact ⟨rfl, rfl, rfl⟩

/-- C2: evaluation of the quota-fallback path at the seed scenario. Chunk 0
of 3 bytes is committed; the flush of chunk 1 fails with `StorageFull` and the
quota handler consents. The post-incremented `chunkIndex` makes the recovery
stream over `1 + 1 = 2` chunks, which errors at the never-persisted index 1,
so the recovery catch rethrows the quota error and the job fails — whereas the
stream over the chunks actually persisted (bound 1) would have recovered
chunk 0 as intended. -/
theorem quota_recovery_fails_at_seed :
    flushWithQuota c2Store [4, 5, 6] 1 6 none true (some true) =
      Except.error "QuotaExceededError" ∧
    getStreamChunks c2Store (1 + 1) = Except.error 1 ∧
    getStreamChunks c2Store 1 = Except.ok [[1, 2, 3]] :=
  ⟨rfl, rfl, rfl⟩

/-- C3: evaluation of the ignored-Range scenario. Resuming from 5 bytes, the
server answers the ranged request with `200 OK`, `Content-Length: 10` and the
full 10-byte body. The job clears the store and consumes the response from
offset 0 as the claim says, but `totalSize` was computed as
`Content-Length + startByte = 15` before `startByte` was reset, so the store
records `totalBytes = 15` against `downloadedBytes = 10` and finalization's
integrity check fails instead of passing. -/
theorem resume200_inflated_total :
    execLoop 5242880 c3Store [c3Resp] = Except.ok c3After ∧
    c3After.meta =
      some { totalBytes := 15, downloadedBytes := 10, chunkCount := 1, etag := none } ∧
    finalizeCache c3After none = Except.error "Integrity check failed" :=
  ⟨rfl, rfl, rfl⟩

/-- C4 counterexample: with `downloaded_bytes = 100` and a `416` carrying
`Content-Range: */50`, the job takes the `startByte >= serverSize` branch and
returns treating the resource as already fully downloaded: the store is NOT
cleared, the second response is never requested, and finalization serves the
100 stale stored bytes rather than the 13-byte fresh body — refuting the
claimed clear-and-retry at this input. -/
theorem retry416_counterexample :
    execLoop 5242880 c4Store [c4Resp416, c4RespFresh] = Except.ok c4Store ∧
    c4Store.meta ≠ none ∧
    finalizeCache c4Store none = Except.ok (List.replicate 100 7, emptyStore) ∧
    List.replicate 100 7 ≠ List.replicate 13 9 :=
  ⟨rfl, by decide, rfl, by decide⟩

/-- C4 amended: on a `416` with parsed `Content-Range: */N` while resuming
from `downloaded_bytes > 0`, the job treats the resource as already fully
downloaded when `N ≤ downloaded_bytes` (no clear, no second request, the
store is left as is); only when `downloaded_bytes < N` does it clear the
ChunkStore and re-execute against the next response — and that retry resumes
from the cleared store, hence with `startByte = 0`, so no `Range` header is
sent. -/
theorem retry416_spec (buf : Nat) (s : StoreState) (m : ChunkMeta) (n : Nat)
    (rest : List HttpResponse) (hm : s.meta = some m) (hd : 0 < m.downloadedBytes) :
    (n ≤ m.downloadedBytes →
      execLoop buf s
        ({ status := 416, contentLength := none, contentRangeTotal := some n,
           etag := none, body := [] } :: rest) = Except.ok s) ∧
    (m.downloadedBytes < n →
      execLoop buf s
        ({ status := 416, contentLength := none, contentRangeTotal := some n,
           etag := none, body := [] } :: rest) = execLoop buf (clearStore s) rest ∧
      (resume (clearStore s)).2.1 = 0) := by
  constructor
  · intro hle
    simp [execLoop, resume, hm, hd, hle]
  · intro hgt
    refine ⟨?_, rfl⟩
    simp [execLoop, resume, hm, hd, Nat.not_le.mpr hgt]

/-- C4 witness: the amended theorem applied at the seed numbers
(`downloaded_bytes = 100`, `Content-Range: */50`): the job reports completion
with the store untouched. -/
theorem retry416_spec_witness :
    execLoop 1 c4Store
      [{ status := 416, contentLength := none, contentRangeTotal := some 50,
         etag := none, body := [] }] = Except.ok c4Store :=
  (retry416_spec 1 c4Store
    { totalBytes := 100, downloadedBytes := 100, chunkCount := 1, etag := none }
    50 [] rfl (by decide)).1 (by decide)

/-- C6 counterexample: two callers (7 then 9) attach to the same tracked job.
`waitForJob` overwrites all three callbacks each time, so when the job
completes only the later subscriber 9 is settled — subscriber 7's future never
settles, refuting the claim that every caller's future receives the final
outcome. -/
theorem broadcast_counterexample :
    settleComplete (attachAll { onProgress := none, onComplete := none, onError := none } [7, 9]) = [9] ∧
    ¬ (∀ k, k ∈ [7, 9] →
        k ∈ settleComplete (attachAll { onProgress := none, onComplete := none, onError := none } [7, 9])) := by
  decide

/-- C6 amended: when acquire/download is called for a URL that already has a
tracked job, each `waitForJob` call replaces the job's progress, completion
AND rejection callbacks; only the most recently attached subscriber is settled
with the final outcome (resolution on completion, rejection on failure), and
earlier subscribers' futures never settle. -/
theorem last_subscriber_gets_outcome (cbs : JobCBs) (ks : List Nat) (l : Nat)
    (h : ks.getLast? = some l) :
    settleComplete (attachAll cbs ks) = [l] ∧ settleError (attachAll cbs ks) = [l] := by
  induction ks generalizing cbs with
  | nil => cases h
  | cons k ks ih =>
    cases ks with
    | nil =>
      simp [List.getLast?] at h
      subst h
      exact ⟨rfl, rfl⟩
    | cons k2 ks2 =>
      have h2 : (k2 :: ks2).getLast? = some l := by
        rwa [List.getLast?_cons_cons] at h
      exact ih (setCallbacks cbs k) h2

/-- C6 witness: with subscribers 7 then 9, the final outcome settles exactly
subscriber 9, on completion and on failure alike. -/
theorem last_subscriber_gets_outcome_witness :
    settleComplete (attachAll { onProgress := none, onComplete := none, onError := none } [7, 9]) = [9] ∧
    settleError (attachAll { onProgress := none, onComplete := none, onError := none } [7, 9]) = [9] :=
  last_subscriber_gets_outcome { onProgress := none, onComplete := none, onError := none } [7, 9] 9 rfl

/-- C9: the stream returned for `(url, expectedChunks)` emits exactly the
stored chunks at indices `0..expectedChunks-1` in ascending index order and
then closes, and when some index in that range has no stored chunk the stream
fails with the missing-chunk error naming the first such index. -/
theorem getStream_spec (s : StoreState) (n : Nat) :
    ((∀ i, i < n → (lookupChunk s.chunks i).isSome) →
      getStreamChunks s n =
        Except.ok ((List.range n).map (fun i => (lookupChunk s.chunks i).getD []))) ∧
    (∀ i, i < n → lookupChunk s.chunks i = none →
      (∀ j, j < i → (lookupChunk s.chunks j).isSome) →
      getStreamChunks s n = Except.error i) := by
  induction n with
  | zero =>
    refine ⟨fun _ => rfl, fun i hi => absurd hi (Nat.not_lt_zero i)⟩
  | succ n ih =>
    constructor
    · intro hall
      have h1 := ih.1 (fun i hi => hall i (Nat.lt_succ_of_lt hi))
      obtain ⟨b, hb⟩ := Option.isSome_iff_exists.mp (hall n (Nat.lt_succ_self n))
      simp [getStreamChunks, h1, hb, List.range_succ]
    · intro i hi hnone hprev
      rcases Nat.lt_succ_iff_lt_or_eq.mp hi with hlt | heq
      · have he := ih.2 i hlt hnone hprev
        simp [getStreamChunks, he]
      · subst heq
        have h1 := ih.1 hprev
        simp [getStreamChunks, h1, hnone]

/-- C9 witness: a store holding chunks `[1,2]` and `[3]` at indices 0 and 1
streams them in order for `expectedChunks = 2`; a store holding only chunk 0
errors with missing index 1 for `expectedChunks = 2`. -/
theorem getStream_spec_witness :
    getStreamChunks { meta := none, chunks := [(1, [3]), (0, [1, 2])] } 2 =
      Except.ok [[1, 2], [3]] ∧
    getStreamChunks { meta := none, chunks := [(0, [1, 2])] } 2 = Except.error 1 :=
  ⟨(getStream_spec { meta := none, chunks := [(1, [3]), (0, [1, 2])] } 2).1 (by decide),
   (getStream_spec { meta := none, chunks := [(0, [1, 2])] } 2).2 1 (by decide) (by decide)
     (by decide)⟩

/-- C7: whenever an acquisition's finalization succeeds — in the
persistent-store path (`memoryBlob = none`) and in the memory-fallback path
alike — the ChunkStore it leaves behind holds no metadata (and no chunks) for
the URL, so `get_metadata(url)` returns nothing after the resolution. -/
theorem finalize_clears_metadata (s : StoreState) (memoryBlob : Option Bytes)
    (b : Bytes) (sFinal : StoreState)
    (h : finalizeCache s memoryBlob = Except.ok (b, sFinal)) :
    sFinal.meta = none ∧ sFinal.chunks = [] := by
  cases memoryBlob with
  | some blob =>
    simp [finalizeCache] at h
    rw [← h.2]
    exact ⟨rfl, rfl⟩
  | none =>
    simp only [finalizeCache] at h
    cases hm : s.meta with
    | none => rw [hm] at h; cases h
    | some m =>
      rw [hm] at h
      dsimp only at h
      by_cases hd : m.downloadedBytes ≠ m.totalBytes
      · rw [if_pos hd] at h; cases h
      · rw [if_neg hd] at h
        cases hg : getStreamChunks s m.chunkCount with
        | error i => rw [hg] at h; cases h
        | ok chunks =>
          rw [hg] at h
          have hs : sFinal = clearStore s := congrArg Prod.snd (Except.ok.inj h).symm
          rw [hs]
          exact ⟨rfl, rfl⟩

/-- C7 witness: finalizing a one-chunk store of one byte succeeds and leaves
no metadata behind. -/
theorem finalize_clears_metadata_witness :
    finalizeCache (appendChunk emptyStore [9] 0 1 none) none =
      Except.ok ([9], { meta := none, chunks := [] }) ∧
    (StoreState.mk none []).meta = none ∧ (StoreState.mk none []).chunks = [] :=
  ⟨rfl, finalize_clears_metadata (appendChunk emptyStore [9] 0 1 none) none [9]
    { meta := none, chunks := [] } rfl⟩

/-- Helper for C8: the `processQueue` loop keeps `activeCount` equal to the
number of running jobs and never pushes it past the bound. -/
theorem drainQueue_inv (maxC : Nat) :
    ∀ (q : List String) (a : Nat) (r : List String), r.length = a → a ≤ maxC →
      (drainQueue maxC a r q).2.1.length = (drainQueue maxC a r q).1 ∧
      (drainQueue maxC a r q).1 ≤ maxC := by
  intro q
  induction q with
  | nil => intro a r h1 h2; exact ⟨h1, h2⟩
  | cons j q ih =>
    intro a r h1 h2
    by_cases hc : maxC ≤ a
    · simp [drainQueue, hc]
      exact ⟨h1, h2⟩
    · simp only [drainQueue, if_neg hc]
      exact ih (a + 1) (j :: r) (by simp [h1]) (Nat.succ_le_of_lt (Nat.lt_of_not_le hc))

/-- Helper for C8: `processQueue` preserves the scheduler invariant. -/
theorem processQueue_inv (maxC : Nat) (s : SchedState) (h : SchedInv maxC s) :
    SchedInv maxC (processQueue maxC s) :=
  drainQueue_inv maxC s.queue s.activeCount s.running h.1 h.2

/-- Helper for C8: the scheduler invariant holds in every reachable state:
requests, completions and failures all preserve it. -/
theorem schedReachable_inv (maxC : Nat) (s : SchedState)
    (h : SchedReachable maxC s) : SchedInv maxC s := by
  induction h with
  | init => exact ⟨rfl, Nat.zero_le maxC⟩
  | req url s hreach ih =>
    unfold reqDownload
    split
    · exact ih
    · exact processQueue_inv maxC _ ⟨ih.1, ih.2⟩
  | done url s hreach ih =>
    unfold jobDone
    split
    · next hmem =>
      refine processQueue_inv maxC _ ⟨?_, ?_⟩
      · show (s.running.erase url).length = s.activeCount - 1
        rw [List.length_erase_of_mem hmem, ih.1]
      · exact Nat.le_trans (Nat.sub_le s.activeCount 1) ih.2
    · exact ih

/-- C8: in every scheduler state reachable by any interleaving of download
requests, job completions and job failures, at most `MAX_CONCURRENT = 3` jobs
are running: `processQueue` admits a queued job only while the active count is
below the bound, and the count is decremented exactly once per job that
completes or fails. -/
theorem scheduler_running_bound (s : SchedState)
    (h : SchedReachable MAX_CONCURRENT s) :
    s.running.length ≤ MAX_CONCURRENT :=
  (schedReachable_inv MAX_CONCURRENT s h).1 ▸ (schedReachable_inv MAX_CONCURRENT s h).2

/-- C8 witness: after four download requests and one completion, the
reachable state still runs at most three jobs. -/
theorem scheduler_running_bound_witness :
    (jobDone MAX_CONCURRENT
      (reqDownload MAX_CONCURRENT
        (reqDownload MAX_CONCURRENT
          (reqDownload MAX_CONCURRENT
            (reqDownload MAX_CONCURRENT emptySched "a") "b") "c") "d") "b").running.length ≤
      MAX_CONCURRENT :=
  scheduler_running_bound _
    (SchedReachable.done "b" _
      (SchedReachable.req "d" _
        (SchedReachable.req "c" _
          (SchedReachable.req "b" _
            (SchedReachable.req "a" _ SchedReachable.init)))))

/-- Helper for C1: appending a row at the next free index extends the chunk
description by one entry. -/
theorem storeDescr_append (L : List Bytes) (t : ChunkTable) (b : Bytes)
    (hDescr : StoreDescr L t) : StoreDescr (L ++ [b]) (putChunk t L.length b) := by
  intro i
  by_cases hi : L.length = i
  · subst hi
    simp [putChunk, lookupChunk, List.get?_concat_length]
  · have hlu : lookupChunk (putChunk t L.length b) i = lookupChunk t i := by
      simp [putChunk, lookupChunk, hi]
    rw [hlu, hDescr i]
    rcases Nat.lt_or_ge i L.length with hlt | hge
    · exact (List.get?_append hlt).symm
    · have hgt : L.length < i := Nat.lt_of_le_of_ne hge (fun he => hi he)
      rw [List.get?_eq_none.mpr hge, List.get?_eq_none.mpr (by simp; omega)]

/-- Helper for C1: the reads delivered by a cut list, together with the bytes
not yet delivered, reassemble the remainder. -/
theorem takeReads_dropReads (cuts : List Nat) :
    ∀ rem : Bytes, (takeReads rem cuts).flatten ++ dropReads rem cuts = rem := by
  induction cuts with
  | nil => intro rem; rfl
  | cons c cs ih =>
    intro rem
    show (rem.take c :: takeReads (rem.drop c) cs).flatten ++ dropReads (rem.drop c) cs = rem
    rw [List.flatten_cons, List.append_assoc, ih (rem.drop c), List.take_append_drop]

/-- Helper for C1: the bytes not yet delivered form a suffix, so a final cut
of the full remainder length delivers everything. -/
theorem dropReads_length_le (cuts : List Nat) :
    ∀ rem : Bytes, (dropReads rem cuts).length ≤ rem.length := by
  induction cuts with
  | nil => intro rem; exact Nat.le_refl _
  | cons c cs ih =>
    intro rem
    exact Nat.le_trans (ih (rem.drop c)) (by simp)

/-- Helper for C1: a store described by `L` streams back exactly the first
`n ≤ L.length` chunks. -/
theorem getStream_descr (s : StoreState) (L : List Bytes) (hDescr : StoreDescr L s.chunks) :
    ∀ n, n ≤ L.length → getStreamChunks s n = Except.ok (L.take n) := by
  intro n
  induction n with
  | zero => intro _; rfl
  | succ n ih =>
    intro hle
    have h1 := ih (Nat.le_of_succ_le hle)
    have hn : lookupChunk s.chunks n = L.get? n := hDescr n
    have hg := List.get?_eq_get (Nat.lt_of_succ_le hle)
    show (match getStreamChunks s n, lookupChunk s.chunks n with
      | Except.error i, _ => Except.error i
      | Except.ok _, none => Except.error n
      | Except.ok acc, some b => Except.ok (acc ++ [b])) = Except.ok (L.take (n + 1))
    rw [h1, hn, hg]
    have : L.take (n + 1) = L.take n ++ [L.get ⟨n, Nat.lt_of_succ_le hle⟩] := by
      rw [List.take_succ]
      congr 1
      rw [← List.get?_eq_getElem?, hg]
      rfl
    rw [this]

/-- Helper: the metadata produced by one committed `appendChunk`, spelled out.
Same computation as the source transaction, stated as an equation for reuse. -/
theorem appendChunk_meta (s : StoreState) (chunk : Bytes) (index total : Nat)
    (etag : Option String) :
    (appendChunk s chunk index total etag).meta =
      some { totalBytes := total
             downloadedBytes :=
               if index = 0 then chunk.length
               else (match s.meta with | some m => m.downloadedBytes | none => 0) + chunk.length
             chunkCount := max (match s.meta with | some m => m.chunkCount | none => 0) (index + 1)
             etag := match s.meta with | some m => m.etag | none => etag } := by
  cases h : s.meta
  · simp [appendChunk, h]
  · simp [appendChunk, h]
    split <;> exact ⟨rfl, rfl, rfl⟩

/-- Helper: `appendChunk` writes exactly one chunk row. -/
theorem appendChunk_chunks (s : StoreState) (chunk : Bytes) (index total : Nat)
    (etag : Option String) :
    (appendChunk s chunk index total etag).chunks = putChunk s.chunks index chunk := rfl

/-- Helper for C1: flushing the next `blob` of the body at the next index
preserves the in-session invariant and advances the offset. -/
theorem runInv_append (B : Bytes) (s : StoreState) (ci off : Nat) (blob rest : Bytes)
    (hInv : RunInv B s ci off) (hdrop : B.drop off = blob ++ rest) :
    RunInv B (appendChunk s blob ci B.length none) (ci + 1) (off + blob.length) ∧
    B.drop (off + blob.length) = rest := by
  have hsum : off + blob.length ≤ B.length := by
    have hlen := congrArg List.length hdrop
    rw [List.length_drop, List.length_append] at hlen
    have hoff : off ≤ B.length := by
      rcases hInv with ⟨_, _, _, ho⟩ | ⟨m, L, _, _, _, hle, _, _, _, _⟩
      · omega
      · exact hle
    omega
  have hdrop2 : B.drop (off + blob.length) = rest := by
    rw [← List.drop_drop, hdrop, List.drop_left]
  have htake : B.take (off + blob.length) = B.take off ++ blob := by
    rw [List.take_add]
    congr 1
    rw [hdrop]
    exact List.take_left blob rest
  refine ⟨?_, hdrop2⟩
  rcases hInv with ⟨hm, hch, hci, ho⟩ | ⟨m, L, hm, htot, hd, hle, hcc, hLl, hDescr, hflat⟩
  · subst hci; subst ho
    refine Or.inr ⟨⟨B.length, blob.length, 1, none⟩, [blob], ?_, rfl, ?_, hsum, rfl, rfl, ?_, ?_⟩
    · simp [appendChunk, hm]
    · exact (Nat.zero_add _).symm
    · rw [appendChunk_chunks, hch]
      exact storeDescr_append [] [] blob (fun i => rfl)
    · show [blob].flatten = B.take (0 + blob.length)
      rw [htake]
      simp
  · have hoff0 : ci = 0 → off = 0 := by
      intro h0
      rw [h0] at hLl
      have hLnil : L = [] := List.length_eq_zero.mp hLl
      rw [hLnil] at hflat
      have htn : B.take off = [] := hflat.symm
      rcases List.take_eq_nil_iff.mp htn with h | h
      · exact h
      · have hB0 : B.length = 0 := by rw [h]; rfl
        omega
    refine Or.inr ⟨⟨B.length, off + blob.length, ci + 1, m.etag⟩, L ++ [blob],
      ?_, rfl, rfl, hsum, rfl, ?_, ?_, ?_⟩
    · have hdb : (if ci = 0 then blob.length else m.downloadedBytes + blob.length) =
          off + blob.length := by
        by_cases h0 : ci = 0
        · rw [if_pos h0, hoff0 h0]
          omega
        · rw [if_neg h0, hd]
      have hmx : max m.chunkCount (ci + 1) = ci + 1 := by
        rw [hcc]
        exact Nat.max_eq_right (Nat.le_succ ci)
      simp [appendChunk, hm, hmx]
      refine ⟨?_, ?_, ?_⟩
      · split
        · next h0 =>
          rw [hoff0 h0]
          show blob.length = 0 + blob.length
          omega
        · next h0 =>
          show m.downloadedBytes + blob.length = off + blob.length
          rw [hd]
      · split <;> rfl
      · split <;> rfl
    · simp [hLl]
    · rw [appendChunk_chunks]
      have h1 := storeDescr_append L s.chunks blob hDescr
      rwa [hLl] at h1
    · rw [List.flatten_append, hflat, htake]
      simp

/-- Helper for C1: the buffered consumption loop preserves the in-session
invariant; afterwards the pending buffer holds the next bytes of the body. -/
theorem runReads_inv (B : Bytes) (buf : Nat) :
    ∀ (reads : List Bytes) (s : StoreState) (ci off : Nat) (pend : List Bytes) (rest : Bytes),
      RunInv B s ci off →
      B.drop off = pend.flatten ++ (reads.flatten ++ rest) →
      ∃ offF restF,
        RunInv B (runReads buf B.length s ci pend reads).1
          (runReads buf B.length s ci pend reads).2.1 offF ∧
        B.drop offF = (runReads buf B.length s ci pend reads).2.2.flatten ++ restF := by
  intro reads
  induction reads with
  | nil =>
    intro s ci off pend rest hInv hdrop
    refine ⟨off, rest, hInv, ?_⟩
    simpa using hdrop
  | cons v vs ih =>
    intro s ci off pend rest hInv hdrop
    have hp : B.drop off = (pend ++ [v]).flatten ++ (vs.flatten ++ rest) := by
      rw [List.flatten_append]
      simp only [List.flatten_cons, List.flatten_nil, List.append_nil, List.append_assoc]
      simpa [List.append_assoc] using hdrop
    show ∃ offF restF,
      RunInv B (runReads buf B.length s ci pend (v :: vs)).1
        (runReads buf B.length s ci pend (v :: vs)).2.1 offF ∧
      B.drop offF = (runReads buf B.length s ci pend (v :: vs)).2.2.flatten ++ restF
    rw [runReads]
    by_cases hbuf : buf ≤ (pend ++ [v]).flatten.length
    · rw [if_pos hbuf]
      have happ := runInv_append B s ci off (pend ++ [v]).flatten (vs.flatten ++ rest) hInv hp
      have hnext : B.drop (off + (pend ++ [v]).flatten.length) =
          ([] : List Bytes).flatten ++ (vs.flatten ++ rest) := by
        simpa using happ.2
      exact ih (appendChunk s (pend ++ [v]).flatten ci B.length none) (ci + 1)
        (off + (pend ++ [v]).flatten.length) [] rest happ.1 hnext
    · rw [if_neg hbuf]
      exact ih s ci off (pend ++ [v]) rest hInv hp

/-- Helper for C1: the in-session invariant implies the between-sessions
store invariant. -/
theorem runInv_storeInv (B : Bytes) (s : StoreState) (ci off : Nat)
    (h : RunInv B s ci off) : StoreInv B s := by
  rcases h with ⟨hm, hch, _, _⟩ | ⟨m, L, hm, htot, hd, hle, hcc, hLl, hDescr, hflat⟩
  · simp [StoreInv, hm, hch]
  · simp only [StoreInv, hm]
    exact ⟨htot, hd ▸ hle, L, hcc ▸ hLl, hDescr, hd ▸ hflat⟩

/-- Helper for C1: resumption turns the between-sessions invariant into the
in-session invariant, with a start byte within the body. -/
theorem resume_runInv (B : Bytes) (s : StoreState) (h : StoreInv B s) :
    RunInv B (resume s).1 (resume s).2.2 (resume s).2.1 ∧ (resume s).2.1 ≤ B.length := by
  cases hm : s.meta with
  | none =>
    have hch : s.chunks = [] := by simpa [StoreInv, hm] using h
    simp only [resume, hm]
    exact ⟨Or.inl ⟨hm, hch, rfl, rfl⟩, Nat.zero_le _⟩
  | some m =>
    have h2 : m.totalBytes = B.length ∧ m.downloadedBytes ≤ B.length ∧
        ∃ L, L.length = m.chunkCount ∧ StoreDescr L s.chunks ∧
          L.flatten = B.take m.downloadedBytes := by
      simpa [StoreInv, hm] using h
    obtain ⟨htot, hle, L, hLl, hDescr, hflat⟩ := h2
    by_cases hd : 0 < m.downloadedBytes
    · simp only [resume, hm, if_pos hd]
      exact ⟨Or.inr ⟨m, L, hm, htot, rfl, hle, rfl, hLl, hDescr, hflat⟩, hle⟩
    · simp only [resume, hm, if_neg hd]
      exact ⟨Or.inl ⟨rfl, rfl, rfl, rfl⟩, Nat.zero_le _⟩

/-- Helper for C1: one session against a Range-honoring server — whether it
completes, aborts mid-body, or resolves as already complete via 416 —
preserves the store invariant. -/
theorem storeInv_runSession (B : Bytes) (buf : Nat) (s : StoreState) (sess : Session)
    (h : StoreInv B s) : StoreInv B (runSession B buf s sess) := by
  obtain ⟨hRun, hle⟩ := resume_runInv B s h
  unfold runSession
  dsimp only
  by_cases h416 : 0 < (resume s).2.1 ∧ B.length ≤ (resume s).2.1
  · rw [if_pos h416]
    exact runInv_storeInv B _ _ _ hRun
  · rw [if_neg h416]
    rw [Nat.sub_add_cancel hle]
    have hsplit : ∀ cuts : List Nat,
        B.drop (resume s).2.1 =
          ([] : List Bytes).flatten ++
            ((takeReads (B.drop (resume s).2.1) cuts).flatten ++
              dropReads (B.drop (resume s).2.1) cuts) := by
      intro cuts
      rw [takeReads_dropReads]
      simp
    cases hcomp : sess.completes
    · simp only [Bool.false_eq_true, if_false]
      obtain ⟨offF, restF, hInvF, _⟩ :=
        runReads_inv B buf (takeReads (B.drop (resume s).2.1) sess.cuts)
          (resume s).1 (resume s).2.2 (resume s).2.1 []
          (dropReads (B.drop (resume s).2.1) sess.cuts) hRun (hsplit sess.cuts)
      exact runInv_storeInv B _ _ _ hInvF
    · simp only [if_true]
      obtain ⟨offF, restF, hInvF, hdropF⟩ :=
        runReads_inv B buf
          (takeReads (B.drop (resume s).2.1) (sess.cuts ++ [(B.drop (resume s).2.1).length]))
          (resume s).1 (resume s).2.2 (resume s).2.1 []
          (dropReads (B.drop (resume s).2.1) (sess.cuts ++ [(B.drop (resume s).2.1).length]))
          hRun (hsplit (sess.cuts ++ [(B.drop (resume s).2.1).length]))
      cases hp : (runReads buf B.length (resume s).1 (resume s).2.2 []
          (takeReads (B.drop (resume s).2.1)
            (sess.cuts ++ [(B.drop (resume s).2.1).length]))).2.2 with
      | nil =>
        exact runInv_storeInv B _ _ _ hInvF
      | cons a as =>
        rw [hp] at hdropF
        have happ := runInv_append B _ _ offF ((a :: as).flatten) restF hInvF hdropF
        exact runInv_storeInv B _ _ _ happ.1

/-- Helper for C1: any interruption/resume pattern of sessions preserves the
store invariant. -/
theorem storeInv_runSessions (B : Bytes) (buf : Nat) :
    ∀ (sessions : List Session) (s : StoreState), StoreInv B s →
      StoreInv B (runSessions B buf s sessions) := by
  intro sessions
  induction sessions with
  | nil => intro s h; exact h
  | cons sess rest ih =>
    intro s h
    exact ih (runSession B buf s sess) (storeInv_runSession B buf s sess h)

/-- Helper for C1: under the store invariant, a successful finalization
caches exactly the server body. -/
theorem storeInv_finalize (B : Bytes) (s : StoreState) (b : Bytes) (sF : StoreState)
    (hInv : StoreInv B s) (h : finalizeCache s none = Except.ok (b, sF)) : b = B := by
  simp only [finalizeCache] at h
  cases hm : s.meta with
  | none => rw [hm] at h; cases h
  | some m =>
    rw [hm] at h
    dsimp only at h
    have h2 : m.totalBytes = B.length ∧ m.downloadedBytes ≤ B.length ∧
        ∃ L, L.length = m.chunkCount ∧ StoreDescr L s.chunks ∧
          L.flatten = B.take m.downloadedBytes := by
      simpa [StoreInv, hm] using hInv
    obtain ⟨htot, hle, L, hLl, hDescr, hflat⟩ := h2
    by_cases hd : m.downloadedBytes ≠ m.totalBytes
    · rw [if_pos hd] at h; cases h
    · rw [if_neg hd] at h
      push_neg at hd
      have hstream : getStreamChunks s m.chunkCount = Except.ok L := by
        have hs := getStream_descr s L hDescr L.length (Nat.le_refl _)
        rw [List.take_length] at hs
        rwa [hLl] at hs
      rw [hstream] at h
      have hb : L.flatten = b := congrArg Prod.fst (Except.ok.inj h)
      rw [← hb, hflat, hd, htot, List.take_length]

/-- C1: round-trip law. For any server body `B`, any per-session chunking of
the response bodies and any interruption/resume pattern (subject to correct
`Range` honoring by the server), whenever a run of the download job followed
by the scheduler's finalization succeeds, the bytes stored in the
ContentCache for the URL equal `B`. -/
theorem download_roundTrip (B : Bytes) (buf : Nat) (sessions : List Session)
    (b : Bytes) (sF : StoreState)
    (h : finalizeCache (runSessions B buf emptyStore sessions) none = Except.ok (b, sF)) :
    b = B :=
  storeInv_finalize B (runSessions B buf emptyStore sessions) b sF
    (storeInv_runSessions B buf sessions emptyStore rfl) h

/-- C1 witness: a 4-byte body downloaded with a 1-byte flush window across
two sessions — the first aborted after one read, the second resuming and
completing — finalizes successfully and caches exactly the body. -/
theorem download_roundTrip_witness :
    finalizeCache (runSessions [5, 6, 7, 8] 1 emptyStore
        [{ cuts := [1], completes := false }, { cuts := [2], completes := true }]) none =
      Except.ok ([5, 6, 7, 8], { meta := none, chunks := [] }) ∧
    ([5, 6, 7, 8] : Bytes) = [5, 6, 7, 8] :=
  ⟨rfl, download_roundTrip [5, 6, 7, 8] 1
    [{ cuts := [1], completes := false }, { cuts := [2], completes := true }]
    [5, 6, 7, 8] { meta := none, chunks := [] } rfl⟩
